import Mathlib

/-!
Shallow embedding of `src/screenshotter.py`, the commit-driven screenshot
orchestration core.  The data model, capture-plan builder, configuration
overlay, output-path generation and the run/teardown control flow are
translated from the Python source.  Failures of the external collaborators
(git checkout, page capture, resource release) are injected through explicit
fault models so that the error-handling and temporal claims can be stated.
-/

namespace Screenshotter

/-- Dataclass `ScreenshotSpec` with its field defaults.  The float field
`delay` is modelled as a rational number; no claim performs arithmetic on it. -/
structure ScreenshotSpec where
  name : String
  commit_sha : String
  commit_message : String
  url : String := "/"
  output_path : String := ""
  viewport_width : Nat := 1280
  viewport_height : Nat := 800
  full_page : Bool := false
  wait_for : Option String := none
  delay : Rat := 1
  is_error_page : Bool := false
  description : String := ""
  show_title_bar : Bool := false
  title_bar_style : String := "chrome"
deriving DecidableEq

/-- `ScreenshotSpec.__post_init__`: an empty `output_path` is replaced by
`screenshots/(name).png`. -/
def postInitSpec (s : ScreenshotSpec) : ScreenshotSpec :=
  if s.output_path = "" then
    { s with output_path := "screenshots/" ++ s.name ++ ".png" }
  else s

/-- How the plan builder constructs one `ScreenshotSpec` (only `name`,
`commit_sha`, `commit_message` and `description` are passed; the rest keep
their dataclass defaults, then `__post_init__` runs). -/
def mkScreenshotSpec (name sha msg desc : String) : ScreenshotSpec :=
  postInitSpec { name := name, commit_sha := sha, commit_message := msg, description := desc }

/-- Dataclass `CommitScreenshots`: a group of captures for one commit. -/
structure CommitScreenshots where
  commit_sha : String
  commit_message : String
  screenshots : List ScreenshotSpec := []
  description : String := ""
  index : Nat := 0
deriving DecidableEq

/-- A git commit as the plan builder sees it: hash and full message.
`repo.iter_commits()` yields commits in the backend's newest-first order;
a commit list fed to `get_screenshot_commits` is in that order. -/
structure Commit where
  hexsha : String
  message : String
deriving DecidableEq

/-! ### Python string helpers used by the plan builder -/

/-- The whitespace characters stripped by Python `str.strip()`. -/
def pyWhitespace (c : Char) : Bool :=
  c = ' ' || c = '\t' || c = '\n' || c = '\r' || c = '\x0b' || c = '\x0c'

/-- Python `str.strip()` on a character list. -/
def pyStrip (l : List Char) : List Char :=
  ((l.dropWhile pyWhitespace).reverse.dropWhile pyWhitespace).reverse

/-- Worker for `splitComma`; `acc` holds the current field reversed. -/
def splitCommaAux : List Char → List Char → List (List Char)
  | [], acc => [acc.reverse]
  | c :: rest, acc =>
    if c = ',' then acc.reverse :: splitCommaAux rest []
    else splitCommaAux rest (c :: acc)

/-- Python `s.split(",")`: fields between commas, never an empty result list. -/
def splitComma (l : List Char) : List (List Char) :=
  splitCommaAux l []

/-- Python `s.split("\n")[0]`: the first line of a string. -/
def firstLine (s : String) : String :=
  String.mk (s.data.takeWhile (fun c => c ≠ '\n'))

/-! ### The annotation search

`SCREENSHOT_PATTERN = re.compile(r"\[screenshot:([^\]]+)\]")` used through
`SCREENSHOT_PATTERN.search(message)`: the leftmost position where the literal
marker is followed by one or more characters other than the closing bracket
and then the closing bracket; the captured group is that character run. -/

/-- The literal marker of the annotation tag. -/
def tagMarker : List Char :=
  ['[', 's', 'c', 'r', 'e', 'e', 'n', 's', 'h', 'o', 't', ':']

/-- `beginsWith p l` is true when `p` is an initial segment of `l`. -/
def beginsWith : List Char → List Char → Bool
  | [], _ => true
  | _ :: _, [] => false
  | p :: ps, c :: cs => p == c && beginsWith ps cs

/-- `re.search` of `SCREENSHOT_PATTERN`: returns the captured group of the
leftmost match, scanning start positions left to right.  At a start position
the marker must be present, followed by a nonempty run of characters other
than the closing bracket, followed by the closing bracket. -/
def screenshotSearch : List Char → Option (List Char)
  | [] => none
  | c :: rest =>
    if beginsWith tagMarker (c :: rest) then
      match (List.drop tagMarker.length (c :: rest)).dropWhile (fun ch => ch ≠ ']') with
      | ']' :: _ =>
        if (List.drop tagMarker.length (c :: rest)).takeWhile (fun ch => ch ≠ ']') = [] then
          screenshotSearch rest
        else some ((List.drop tagMarker.length (c :: rest)).takeWhile (fun ch => ch ≠ ']'))
      | _ => screenshotSearch rest
    else screenshotSearch rest

/-! ### Capture Plan Builder (`GitProjectManager.get_screenshot_commits`) -/

/-- The `CommitScreenshots` built for one matching commit: one spec per
comma-separated name, each stripped of surrounding whitespace, all sharing
the commit's hash and message; `index` is still the dataclass default 0. -/
def mkGroup (c : Commit) (grp : List Char) : CommitScreenshots :=
  let names := (splitComma grp).map (fun n => String.mk (pyStrip n))
  { commit_sha := c.hexsha
    commit_message := c.message
    screenshots := names.map (fun n => mkScreenshotSpec n c.hexsha c.message (firstLine c.message))
    description := firstLine c.message
    index := 0 }

/-- The loop body of `get_screenshot_commits` for one commit: a group when
the message matches the pattern, nothing otherwise. -/
def commitSpecs (c : Commit) : Option CommitScreenshots :=
  match screenshotSearch c.message.data with
  | none => none
  | some grp => some (mkGroup c grp)

/-- Body of `for index, commit_group in enumerate(commits, start=1)`:
the 1-based position is written into the group's `index` field. -/
def assignIdx (p : Nat × CommitScreenshots) : CommitScreenshots :=
  { p.2 with index := p.1 + 1 }

/-- `GitProjectManager.get_screenshot_commits`: collect the matching commits
in backend (newest-first) order, reverse into chronological order, then
assign 1-based indices over the reversed list. -/
def get_screenshot_commits (commits : List Commit) : List CommitScreenshots :=
  (((commits.filterMap commitSpecs).reverse).enum).map assignIdx

lemma commitSpecs_eq_none {c : Commit} (h : screenshotSearch c.message.data = none) :
    commitSpecs c = none := by
  simp [commitSpecs, h]

lemma commitSpecs_eq_some {c : Commit} {grp : List Char}
    (h : screenshotSearch c.message.data = some grp) :
    commitSpecs c = some (mkGroup c grp) := by
  simp [commitSpecs, h]

lemma length_filterMap_commitSpecs (l : List Commit) :
    (l.filterMap commitSpecs).length
      = l.countP (fun c => (screenshotSearch c.message.data).isSome) := by
  induction l with
  | nil => rfl
  | cons c l ih =>
    cases h : screenshotSearch c.message.data with
    | none =>
      rw [List.filterMap_cons, commitSpecs_eq_none h, List.countP_cons]
      simp [h, ih]
    | some grp =>
      rw [List.filterMap_cons, commitSpecs_eq_some h, List.countP_cons]
      simp [h, ih]

lemma filterMap_reverse_comm {α β : Type} (f : α → Option β) (l : List α) :
    l.reverse.filterMap f = (l.filterMap f).reverse := by
  induction l with
  | nil => rfl
  | cons a l ih =>
    cases h : f a with
    | none => simp [List.reverse_cons, List.filterMap_append, List.filterMap_cons, h, ih]
    | some b => simp [List.reverse_cons, List.filterMap_append, List.filterMap_cons, h, ih]

lemma enumFrom_assign_map_index (n : Nat) (l : List CommitScreenshots) :
    ((List.enumFrom n l).map assignIdx).map CommitScreenshots.index
      = List.range' (n + 1) l.length := by
  induction l generalizing n with
  | nil => rfl
  | cons g l ih =>
    simp [List.enumFrom, assignIdx, List.range', ih, Nat.add_assoc, Nat.add_comm 1 1]

lemma enumFrom_assign_map_clear (n : Nat) (l : List CommitScreenshots)
    (h : ∀ g ∈ l, g.index = 0) :
    ((List.enumFrom n l).map assignIdx).map (fun g => { g with index := 0 }) = l := by
  induction l generalizing n with
  | nil => rfl
  | cons g l ih =>
    have h0 : g.index = 0 := h g (List.mem_cons_self ..)
    have hr := ih (n + 1) (fun x hx => h x (List.mem_cons_of_mem _ hx))
    simp only [List.enumFrom, List.map_cons, assignIdx, hr]
    cases g with
    | mk sha msg scr desc idx =>
      simp only [CommitScreenshots.index] at h0
      simp [h0]

lemma mem_filterMap_commitSpecs_index {l : List Commit} {g : CommitScreenshots}
    (h : g ∈ l.filterMap commitSpecs) : g.index = 0 := by
  rcases List.mem_filterMap.mp h with ⟨c, _, hc⟩
  cases hsearch : screenshotSearch c.message.data with
  | none => rw [commitSpecs_eq_none hsearch] at hc; cases hc
  | some grp =>
    rw [commitSpecs_eq_some hsearch] at hc
    cases hc
    rfl

/-- Claim C3: the plan builder returns the annotated commit groups in
chronological (oldest-first) order, with `index` values exactly `1..K`
(strictly increasing, gapless) where `K` is the number of commits whose
message carries the annotation; index assignment happens after the reversal
from the backend's newest-first order, so index 1 is the earliest relevant
commit.  Stated as: the produced index list is `range' 1 K`, and the groups
with the index erased are exactly the matching groups of the reversed
(chronological) commit list. -/
theorem C3_plan_order (commits : List Commit) :
    (get_screenshot_commits commits).map CommitScreenshots.index
        = List.range' 1 (commits.countP (fun c => (screenshotSearch c.message.data).isSome))
    ∧ (get_screenshot_commits commits).map (fun g => { g with index := 0 })
        = commits.reverse.filterMap commitSpecs := by
  constructor
  · unfold get_screenshot_commits
    rw [List.enum, enumFrom_assign_map_index]
    rw [List.length_reverse, length_filterMap_commitSpecs]
  · unfold get_screenshot_commits
    rw [List.enum, enumFrom_assign_map_clear]
    · exact (filterMap_reverse_comm commitSpecs commits).symm
    · intro g hg
      exact mem_filterMap_commitSpecs_index (List.mem_reverse.mp hg)

/-! ### Lemmas about the annotation search, and claim C8 -/

lemma map_ext_mem {α β : Type} (l : List α) (f g : α → β) (h : ∀ x ∈ l, f x = g x) :
    l.map f = l.map g := by
  induction l with
  | nil => rfl
  | cons a l ih =>
    simp only [List.map_cons, h a (List.mem_cons_self ..),
      ih fun x hx => h x (List.mem_cons_of_mem _ hx)]

lemma beginsWith_append (p l : List Char) : beginsWith p (p ++ l) = true := by
  induction p with
  | nil => rfl
  | cons c p ih => simp [beginsWith, ih]

lemma takeWhile_until_rbracket (names rest : List Char) (h : ']' ∉ names) :
    (names ++ ']' :: rest).takeWhile (fun ch => ch ≠ ']') = names := by
  induction names with
  | nil => simp [List.takeWhile]
  | cons c ns ih =>
    simp only [List.mem_cons, not_or] at h
    have hc : c ≠ ']' := fun hcc => h.1 hcc.symm
    rw [List.cons_append, List.takeWhile_cons_of_pos (by simp [hc]), ih h.2]

lemma dropWhile_until_rbracket (names rest : List Char) (h : ']' ∉ names) :
    (names ++ ']' :: rest).dropWhile (fun ch => ch ≠ ']') = ']' :: rest := by
  induction names with
  | nil => simp [List.dropWhile]
  | cons c ns ih =>
    simp only [List.mem_cons, not_or] at h
    have hc : c ≠ ']' := fun hcc => h.1 hcc.symm
    rw [List.cons_append, List.dropWhile_cons_of_pos (by simp [hc]), ih h.2]

lemma dropWhile_eq_nil_of_forall (p : Char → Bool) (l : List Char)
    (h : ∀ a ∈ l, p a = true) : l.dropWhile p = [] := by
  induction l with
  | nil => rfl
  | cons c cs ih =>
    simp [List.dropWhile, h c (List.mem_cons_self ..),
      ih fun a ha => h a (List.mem_cons_of_mem _ ha)]

lemma mem_of_mem_dropN {α : Type} : ∀ (n : Nat) (l : List α) (a : α),
    a ∈ l.drop n → a ∈ l
  | 0, _, _, h => h
  | _ + 1, [], _, h => absurd h (List.not_mem_nil _)
  | n + 1, _ :: cs, a, h => List.mem_cons_of_mem _ (mem_of_mem_dropN n cs a h)

lemma drop_length_append (p l : List Char) : List.drop p.length (p ++ l) = l := by
  induction p with
  | nil => rfl
  | cons c p ih => simp [ih]

/-- Unfolding of the search at a position where the marker is present:
everything after the marker is inspected for the group and closing bracket. -/
lemma screenshotSearch_marker (X : List Char) :
    screenshotSearch (tagMarker ++ X) =
      match X.dropWhile (fun ch => ch ≠ ']') with
      | ']' :: _ =>
        if X.takeWhile (fun ch => ch ≠ ']') = [] then
          screenshotSearch (tagMarker.tail ++ X)
        else some (X.takeWhile (fun ch => ch ≠ ']'))
      | _ => screenshotSearch (tagMarker.tail ++ X) := by
  have hb : beginsWith tagMarker (tagMarker ++ X) = true := beginsWith_append tagMarker X
  have hd : List.drop tagMarker.length (tagMarker ++ X) = X := drop_length_append tagMarker X
  show screenshotSearch ('[' :: (tagMarker.tail ++ X)) = _
  rw [screenshotSearch]
  have hb2 : beginsWith tagMarker ('[' :: (tagMarker.tail ++ X)) = true := hb
  have hd2 : List.drop tagMarker.length ('[' :: (tagMarker.tail ++ X)) = X := hd
  rw [hb2, hd2]
  simp

lemma screenshotSearch_cons_ne (c : Char) (l : List Char) (hc : c ≠ '[') :
    screenshotSearch (c :: l) = screenshotSearch l := by
  have hb : beginsWith tagMarker (c :: l) = false := by
    simp only [tagMarker, beginsWith, Bool.and_eq_false_iff]
    left
    simp [hc]
    intro hcc
    exact absurd hcc.symm hc
  rw [screenshotSearch, hb]
  simp

lemma screenshotSearch_none (l : List Char) (h : ']' ∉ l) : screenshotSearch l = none := by
  induction l with
  | nil => rfl
  | cons c rest ih =>
    have hrest : ']' ∉ rest := fun hm => h (List.mem_cons_of_mem _ hm)
    by_cases hb : beginsWith tagMarker (c :: rest) = true
    · have hafter : (List.drop tagMarker.length (c :: rest)).dropWhile
          (fun ch => ch ≠ ']') = [] := by
        apply dropWhile_eq_nil_of_forall
        intro a ha
        have hmem : a ∈ c :: rest := mem_of_mem_dropN _ _ _ ha
        simp only [ne_eq, decide_eq_true_eq]
        rintro rfl
        exact h hmem
      rw [screenshotSearch, hb, hafter]
      simpa using ih hrest
    · rw [screenshotSearch, Bool.eq_false_iff.mpr hb]
      simpa using ih hrest

lemma screenshotSearch_found (pre names rest : List Char)
    (hpre : '[' ∉ pre) (hn : ']' ∉ names) (hne : names ≠ []) :
    screenshotSearch (pre ++ tagMarker ++ names ++ ']' :: rest) = some names := by
  induction pre with
  | nil =>
    rw [List.nil_append, List.append_assoc]
    rw [screenshotSearch_marker (names ++ ']' :: rest)]
    rw [dropWhile_until_rbracket names rest hn, takeWhile_until_rbracket names rest hn]
    simp [hne]
  | cons c pre ih =>
    simp only [List.mem_cons, not_or] at hpre
    have hc : c ≠ '[' := fun hcc => hpre.1 hcc.symm
    rw [List.cons_append, List.cons_append, List.cons_append,
      screenshotSearch_cons_ne c _ hc]
    exact ih hpre.2

lemma mkScreenshotSpec_name (n sha msg desc : String) :
    (mkScreenshotSpec n sha msg desc).name = n := by
  unfold mkScreenshotSpec postInitSpec
  simp

lemma mkScreenshotSpec_sha (n sha msg desc : String) :
    (mkScreenshotSpec n sha msg desc).commit_sha = sha := by
  unfold mkScreenshotSpec postInitSpec
  simp

lemma mkScreenshotSpec_message (n sha msg desc : String) :
    (mkScreenshotSpec n sha msg desc).commit_message = msg := by
  unfold mkScreenshotSpec postInitSpec
  simp

/-- Claim C8: a commit whose message contains the first-match tag
`[screenshot:(names)]` with comma-separated names yields exactly one spec per
listed name, in the listed order, each trimmed of surrounding whitespace,
all sharing the commit's hash and message; a commit whose message lacks a
closing bracket (hence has no tag, or only a malformed one) contributes no
group at all. -/
theorem C8_tag_extraction (c : Commit) :
    (∀ pre names rest, c.message.data = pre ++ tagMarker ++ names ++ ']' :: rest →
        '[' ∉ pre → ']' ∉ names → names ≠ [] →
        commitSpecs c = some (mkGroup c names) ∧
        (mkGroup c names).screenshots.map ScreenshotSpec.name
            = (splitComma names).map (fun n => String.mk (pyStrip n)) ∧
        (∀ s ∈ (mkGroup c names).screenshots,
            s.commit_sha = c.hexsha ∧ s.commit_message = c.message))
    ∧ (']' ∉ c.message.data → commitSpecs c = none) := by
  constructor
  · intro pre names rest hmsg hpre hn hne
    have hsearch : screenshotSearch c.message.data = some names := by
      rw [hmsg]
      exact screenshotSearch_found pre names rest hpre hn hne
    refine ⟨commitSpecs_eq_some hsearch, ?_, ?_⟩
    · unfold mkGroup
      rw [List.map_map]
      have : ∀ n ∈ (splitComma names).map (fun n => String.mk (pyStrip n)),
          (ScreenshotSpec.name ∘ fun n =>
            mkScreenshotSpec n c.hexsha c.message (firstLine c.message)) n = id n := by
        intro n _
        simp [Function.comp, mkScreenshotSpec_name]
      rw [map_ext_mem _ _ _ this, List.map_id]
    · intro s hs
      unfold mkGroup at hs
      simp only [List.mem_map] at hs
      obtain ⟨n, _, rfl⟩ := hs
      exact ⟨mkScreenshotSpec_sha .., mkScreenshotSpec_message ..⟩
  · intro h
    exact commitSpecs_eq_none (screenshotSearch_none _ h)

def c8Commit : Commit := { hexsha := "sha1", message := "fix [screenshot: a ,b] tail" }

theorem C8_witness :
    commitSpecs c8Commit = some (mkGroup c8Commit " a ,b".data) ∧
    (mkGroup c8Commit " a ,b".data).screenshots.map ScreenshotSpec.name
        = (splitComma " a ,b".data).map (fun n => String.mk (pyStrip n)) ∧
    (∀ s ∈ (mkGroup c8Commit " a ,b".data).screenshots,
        s.commit_sha = c8Commit.hexsha ∧ s.commit_message = c8Commit.message) :=
  (C8_tag_extraction c8Commit).1 "fix ".data " a ,b".data " tail".data
    (by decide) (by decide) (by decide) (by decide)

/-! ### Configuration overlay (`ScreenshotOrchestrator._apply_screenshot_config`) -/

/-- One override mapping of the YAML configuration (the `defaults` section or
one named entry under `screenshots`).  A field is `none` when the key is
absent from the mapping. -/
structure OverrideMap where
  url : Option String := none
  viewport_width : Option Nat := none
  viewport_height : Option Nat := none
  full_page : Option Bool := none
  wait_for : Option String := none
  delay : Option Rat := none
  output : Option String := none
  show_title_bar : Option Bool := none
  title_bar_style : Option String := none
deriving DecidableEq

/-- The loaded YAML configuration document: the keys the orchestrator reads.
`config.get("defaults", \x7b\x7d)` is modelled by an `OverrideMap` whose
fields are all `none` by default, and the `screenshots` mapping by an
association list. -/
structure Config where
  output_dir : Option String := none
  defaults : OverrideMap := {}
  screenshots : List (String × OverrideMap) := []
deriving DecidableEq

/-- Dictionary lookup `screenshots_config[name]` guarded by
`name in screenshots_config`. -/
def findConfig (name : String) : List (String × OverrideMap) → Option OverrideMap
  | [] => none
  | (n, m) :: rest => if n = name then some m else findConfig name rest

/-- First half of `_apply_screenshot_config`: the global `defaults` section,
from which the source reads only `show_title_bar` and `title_bar_style`
(each assigned only when the key is present). -/
def applyDefaultsStep (g : OverrideMap) (spec : ScreenshotSpec) : ScreenshotSpec :=
  let s1 := match g.show_title_bar with
    | some v => { spec with show_title_bar := v }
    | none => spec
  match g.title_bar_style with
  | some v => { s1 with title_bar_style := v }
  | none => s1

/-- Second half of `_apply_screenshot_config`: the named entry overrides each
of its present keys, in the source's statement order. -/
def applyNamedStep (cfg : OverrideMap) (s : ScreenshotSpec) : ScreenshotSpec :=
  let t1 := match cfg.url with
    | some v => { s with url := v }
    | none => s
  let t2 := match cfg.viewport_width with
    | some v => { t1 with viewport_width := v }
    | none => t1
  let t3 := match cfg.viewport_height with
    | some v => { t2 with viewport_height := v }
    | none => t2
  let t4 := match cfg.full_page with
    | some v => { t3 with full_page := v }
    | none => t3
  let t5 := match cfg.wait_for with
    | some v => { t4 with wait_for := some v }
    | none => t4
  let t6 := match cfg.delay with
    | some v => { t5 with delay := v }
    | none => t5
  let t7 := match cfg.output with
    | some v => { t6 with output_path := v }
    | none => t6
  let t8 := match cfg.show_title_bar with
    | some v => { t7 with show_title_bar := v }
    | none => t7
  match cfg.title_bar_style with
  | some v => { t8 with title_bar_style := v }
  | none => t8

/-- `_apply_screenshot_config`, translated statement by statement: the
`defaults` section first, then — when the capture name has a named entry —
that entry's present keys override. -/
def apply_screenshot_config (config : Config) (spec : ScreenshotSpec) : ScreenshotSpec :=
  let s2 := applyDefaultsStep config.defaults spec
  match findConfig spec.name config.screenshots with
  | none => s2
  | some cfg => applyNamedStep cfg s2

/-- Modelled from the spec's wording of §4.2 for comparison: every recognized
key resolved independently by precedence, except that — as the amended claim
states — the `defaults` layer only contributes `show_title_bar` and
`title_bar_style`. -/
def resolve_model (config : Config) (spec : ScreenshotSpec) : ScreenshotSpec :=
  let d := config.defaults
  let stb0 := d.show_title_bar.getD spec.show_title_bar
  let tbs0 := d.title_bar_style.getD spec.title_bar_style
  match findConfig spec.name config.screenshots with
  | none => { spec with show_title_bar := stb0, title_bar_style := tbs0 }
  | some cfg =>
    { spec with
      url := cfg.url.getD spec.url
      viewport_width := cfg.viewport_width.getD spec.viewport_width
      viewport_height := cfg.viewport_height.getD spec.viewport_height
      full_page := cfg.full_page.getD spec.full_page
      wait_for := match cfg.wait_for with
        | some v => some v
        | none => spec.wait_for
      delay := cfg.delay.getD spec.delay
      output_path := cfg.output.getD spec.output_path
      show_title_bar := cfg.show_title_bar.getD stb0
      title_bar_style := cfg.title_bar_style.getD tbs0 }

def c6Spec : ScreenshotSpec := mkScreenshotSpec "home" "sha" "msg" "msg"

def c6Config : Config := { defaults := { url := some "/about" } }

/-- Counterexample to claim C6 as stated: a `url` key in the global
`defaults` section is NOT applied — with defaults carrying `url = "/about"`
and no named entry, the resolved url stays at the compiled-in default `"/"`.
The source only reads `show_title_bar` and `title_bar_style` from
`defaults`. -/
theorem C6_counterexample :
    (apply_screenshot_config c6Config c6Spec).url = "/"
      ∧ (apply_screenshot_config c6Config c6Spec).url ≠ "/about" := by
  constructor
  · rfl
  · decide

/-- Claim C6 (amended): the named per-capture entry applies each of the nine
recognized keys independently and wins over the global defaults for the same
key; the global `defaults` section, however, only contributes
`show_title_bar` and `title_bar_style` — every other key in `defaults` is
ignored, and a key absent at a level leaves the lower-precedence value
untouched.  Stated as: the source's sequential overlay equals the layered
per-key resolution `resolve_model`. -/
theorem C6_overlay (config : Config) (spec : ScreenshotSpec) :
    apply_screenshot_config config spec = resolve_model config spec := by
  have hdef : ∀ (g : OverrideMap) (s : ScreenshotSpec),
      applyDefaultsStep g s
        = { s with show_title_bar := g.show_title_bar.getD s.show_title_bar
                   title_bar_style := g.title_bar_style.getD s.title_bar_style } := by
    intro g s
    unfold applyDefaultsStep
    cases g.show_title_bar <;> cases g.title_bar_style <;> rfl
  have hnamed : ∀ (cfg : OverrideMap) (s : ScreenshotSpec),
      applyNamedStep cfg s
        = { s with
            url := cfg.url.getD s.url
            viewport_width := cfg.viewport_width.getD s.viewport_width
            viewport_height := cfg.viewport_height.getD s.viewport_height
            full_page := cfg.full_page.getD s.full_page
            wait_for := match cfg.wait_for with
              | some v => some v
              | none => s.wait_for
            delay := cfg.delay.getD s.delay
            output_path := cfg.output.getD s.output_path
            show_title_bar := cfg.show_title_bar.getD s.show_title_bar
            title_bar_style := cfg.title_bar_style.getD s.title_bar_style } := by
    intro cfg s
    unfold applyNamedStep
    rcases cfg with ⟨u, vw, vh, fp, wf, de, ou, st, ts⟩
    cases u <;> cases vw <;> cases vh <;> cases fp <;> cases wf <;> cases de <;>
      cases ou <;> cases st <;> cases ts <;> rfl
  unfold apply_screenshot_config resolve_model
  cases h : findConfig spec.name config.screenshots with
  | none => dsimp only; rw [hdef]
  | some cfg =>
    dsimp only
    rw [hnamed, hdef]

/-! ### Output path generation (`ScreenshotOrchestrator._generate_output_path`) -/

/-- Splits a character list at the LAST occurrence of `sep`:
`l = a ++ sep :: b` with `sep ∉ b`; `none` when `sep` does not occur. -/
def lastSplitOn (sep : Char) : List Char → Option (List Char × List Char)
  | [] => none
  | c :: rest =>
    match lastSplitOn sep rest with
    | some (a, b) => some (c :: a, b)
    | none => if c = sep then some ([], rest) else none

/-- Python `PurePath.stem`/`PurePath.suffix` of a filename (no slash in it):
the suffix runs from the last dot, unless that dot is the first character of
the name or nothing follows it. -/
def pyPathStemSuffix (f : List Char) : List Char × List Char :=
  match lastSplitOn '.' f with
  | none => (f, [])
  | some (a, b) => if a = [] ∨ b = [] then (f, []) else (a, '.' :: b)

/-- `_generate_output_path`: when the configuration has a (truthy) custom
output for the capture name, inject the commit label into the custom path's
filename stem, keeping its directory and extension; otherwise
`output_dir/(label)(name).png`.  `pathlib` is modelled for normalized paths
(no duplicate or trailing slashes, no dot components): `Path(p).parent / f`
is `f` itself when `p` has no slash, else the part before the last slash
followed by a slash and `f`. -/
def generate_output_path (config : Config) (spec : ScreenshotSpec) (label : String) : String :=
  let output_dir := (config.output_dir).getD "screenshots"
  match findConfig spec.name config.screenshots with
  | some cfg =>
    match cfg.output with
    | some custom =>
      if custom = "" then output_dir ++ "/" ++ label ++ spec.name ++ ".png"
      else
        match lastSplitOn '/' custom.data with
        | none =>
          let p := pyPathStemSuffix custom.data
          String.mk (label.data ++ p.1 ++ p.2)
        | some (d, f) =>
          let p := pyPathStemSuffix f
          String.mk (d ++ '/' :: (label.data ++ p.1 ++ p.2))
    | none => output_dir ++ "/" ++ label ++ spec.name ++ ".png"
  | none => output_dir ++ "/" ++ label ++ spec.name ++ ".png"

lemma lastSplitOn_not_mem (sep : Char) (l : List Char) (h : sep ∉ l) :
    lastSplitOn sep l = none := by
  induction l with
  | nil => rfl
  | cons c rest ih =>
    simp only [List.mem_cons, not_or] at h
    rw [lastSplitOn, ih h.2]
    simp only
    rw [if_neg (fun hcc => h.1 hcc.symm)]

lemma lastSplitOn_append (sep : Char) (a b : List Char) (h : sep ∉ b) :
    lastSplitOn sep (a ++ sep :: b) = some (a, b) := by
  induction a with
  | nil =>
    rw [List.nil_append, lastSplitOn, lastSplitOn_not_mem sep b h]
    simp
  | cons c a ih =>
    rw [List.cons_append, lastSplitOn, ih]

lemma pyPathStemSuffix_eq (st ext : List Char) (hdot : '.' ∉ ext)
    (hst : st ≠ []) (hext : ext ≠ []) :
    pyPathStemSuffix (st ++ '.' :: ext) = (st, '.' :: ext) := by
  unfold pyPathStemSuffix
  rw [lastSplitOn_append '.' st ext hdot]
  simp [hst, hext]

/-- Claim C7: with a custom output path configured for the capture name, the
final output path is that custom path with the commit label injected into its
filename stem, directory and extension preserved; otherwise it is
`output_dir/(label)(name).png` (with `output_dir` defaulting to
`screenshots`). -/
theorem C7_output_path (config : Config) (spec : ScreenshotSpec) (label : String) :
    (∀ cfg d st ext, findConfig spec.name config.screenshots = some cfg →
        cfg.output = some (String.mk (d ++ '/' :: (st ++ '.' :: ext))) →
        '/' ∉ st ++ '.' :: ext → '.' ∉ ext → st ≠ [] → ext ≠ [] →
        generate_output_path config spec label
          = String.mk (d ++ '/' :: (label.data ++ st ++ '.' :: ext)))
    ∧ ((∀ cfg, findConfig spec.name config.screenshots = some cfg →
          (cfg.output = none ∨ cfg.output = some "")) →
        generate_output_path config spec label
          = (config.output_dir).getD "screenshots" ++ "/" ++ label ++ spec.name ++ ".png") := by
  constructor
  · intro cfg d st ext hfind hout hslash hdot hst hext
    have hne : String.mk (d ++ '/' :: (st ++ '.' :: ext)) ≠ "" := by
      intro hh
      have hdata := congrArg String.data hh
      simp at hdata
    unfold generate_output_path
    rw [hfind]
    dsimp only
    rw [hout]
    dsimp only
    rw [if_neg hne]
    rw [lastSplitOn_append '/' d (st ++ '.' :: ext) hslash]
    dsimp only
    rw [pyPathStemSuffix_eq st ext hdot hst hext]
  · intro hcase
    unfold generate_output_path
    cases hfind : findConfig spec.name config.screenshots with
    | none => rfl
    | some cfg =>
      dsimp only
      rcases hcase cfg hfind with hnone | hempty
      · rw [hnone]
      · rw [hempty]
        dsimp only
        rw [if_pos rfl]

def c7Entry : OverrideMap := { output := some "custom/h.png" }

def c7Config : Config := { screenshots := [("home", c7Entry)] }

def c7Spec : ScreenshotSpec := mkScreenshotSpec "home" "sha" "msg" "msg"

theorem C7_witness :
    generate_output_path c7Config c7Spec "02_" = "custom/02_h.png" := by
  have h := (C7_output_path c7Config c7Spec "02_").1 c7Entry
      "custom".data "h".data "png".data (by decide) (by decide) (by decide)
      (by decide) (by decide) (by decide)
  exact h.trans (by decide)

/-! ### The run (`ScreenshotOrchestrator.run_from_git`), with fault injection

The external collaborators that can raise inside the processing loop are the
git checkout and the page capture; a `FaultModel` says, per commit and per
capture, whether that call raises and with which message.  Server cache
clearing and restart are recorded as events and modelled as non-raising (in
the source an exception there would be caught by the same group-level
handler as a checkout failure).  Config application and output-path
computation are pure and cannot raise. -/

/-- Observable actions of a run, for the temporal claims. -/
inductive Event where
  | checkoutEv (sha : String)
  | cacheClearEv
  | serverRestartEv
  | captureEv (name : String) (sha : String)
  | browserStartEv
  | serverStartEv
  | browserStopEv
  | serverStopEv
  | restoreEv
deriving DecidableEq

/-- Injected faults: `checkout_fails sha` is the message of the exception
`checkout_commit(sha)` raises (or `none`), `capture_fails name sha` likewise
for `browser.capture` of that capture at that commit. -/
structure FaultModel where
  checkout_fails : String → Option String
  capture_fails : String → String → Option String

/-- One entry of `self.results`. -/
structure RunResult where
  name : String
  filename : String
  path : Option String
  commit : String
  commit_index : Nat
  status : String
  error : Option String := none
deriving DecidableEq

/-- Python `sha[:8]`. -/
def take8 (s : String) : String := String.mk (s.data.take 8)

/-- Python `f"(index):02d"`-style zero padding to width two. -/
def zeroPad2 (n : Nat) : String := if n < 10 then "0" ++ toString n else toString n

/-- The commit sequence label `f"(index):02d_"` computed per group. -/
def commit_prefix_of (n : Nat) : String := zeroPad2 n ++ "_"

/-- The `--only` filter: with a non-empty name list keep only listed names,
otherwise (Python falsy `only`) take the whole group. -/
def filtered_specs (cg : CommitScreenshots) (only : List String) : List ScreenshotSpec :=
  if only.isEmpty then cg.screenshots
  else cg.screenshots.filter (fun s => only.contains s.name)

/-- Body of the inner per-capture try: apply the named/default config, build
the output path, then capture.  On a capture fault the error entry is
recorded; either way the `filename` field is `(label)(name).png` (the
overlay never rewrites `name`). -/
def process_spec (config : Config) (fm : FaultModel) (cg : CommitScreenshots)
    (label : String) (spec : ScreenshotSpec) : RunResult × List Event :=
  match fm.capture_fails spec.name cg.commit_sha with
  | none =>
    ({ name := spec.name
       filename := label ++ spec.name ++ ".png"
       path := some (generate_output_path config
         (apply_screenshot_config config spec) label)
       commit := take8 cg.commit_sha
       commit_index := cg.index
       status := "success"
       error := none },
     [Event.captureEv spec.name cg.commit_sha])
  | some e =>
    ({ name := spec.name
       filename := label ++ spec.name ++ ".png"
       path := none
       commit := take8 cg.commit_sha
       commit_index := cg.index
       status := "error"
       error := some e },
     [Event.captureEv spec.name cg.commit_sha])

/-- The entry recorded for every filtered capture of a group whose checkout
raised with message `e`. -/
def checkout_error_result (cg : CommitScreenshots) (label : String) (e : String)
    (spec : ScreenshotSpec) : RunResult :=
  { name := spec.name
    filename := label ++ spec.name ++ ".png"
    path := none
    commit := take8 cg.commit_sha
    commit_index := cg.index
    status := "error"
    error := some ("Checkout failed: " ++ e) }

/-- One iteration of the commit-group loop: skip a group whose filtered list
is empty; otherwise checkout (on a raise: every filtered capture becomes a
checkout-failure error entry), else clear cache, restart the server and
process each capture in list order. -/
def process_group (config : Config) (fm : FaultModel) (only : List String)
    (cg : CommitScreenshots) : List RunResult × List Event :=
  if (filtered_specs cg only).isEmpty then ([], [])
  else
    match fm.checkout_fails cg.commit_sha with
    | some e =>
      ((filtered_specs cg only).map
        (checkout_error_result cg (commit_prefix_of cg.index) e),
       [Event.checkoutEv cg.commit_sha])
    | none =>
      (((filtered_specs cg only).map
          (process_spec config fm cg (commit_prefix_of cg.index))).map Prod.fst,
       Event.checkoutEv cg.commit_sha :: Event.cacheClearEv :: Event.serverRestartEv ::
         (((filtered_specs cg only).map
            (process_spec config fm cg (commit_prefix_of cg.index))).map Prod.snd).flatten)

/-- `run_from_git`: build the plan and process every group in order,
accumulating results and events.  (The empty-plan early return produces the
same empty accumulation.) -/
def run_from_git (config : Config) (fm : FaultModel) (commits : List Commit)
    (only : List String) : List RunResult × List Event :=
  let groups := get_screenshot_commits commits
  ((groups.map fun cg => (process_group config fm only cg).1).flatten,
   (groups.map fun cg => (process_group config fm only cg).2).flatten)

/-- `ScreenshotOrchestrator.setup`: browser start then server start. -/
def setup_trace : List Event := [Event.browserStartEv, Event.serverStartEv]

/-- `ScreenshotOrchestrator.teardown` when no release step raises:
browser stop, then server stop, then `git_manager.restore_original()`. -/
def teardown_trace : List Event := [Event.browserStopEv, Event.serverStopEv, Event.restoreEv]

/-- `main`: `try: setup(); run_from_git(); report finally: teardown()`.
The realized run trace is a prefix `p` of the full run event trace — the
whole trace when the run returned, a proper prefix when an exception escaped
mid-run — and teardown always follows. -/
def main_trace_of (p : List Event) : List Event :=
  setup_trace ++ p ++ teardown_trace

lemma process_spec_fst_none (config : Config) (fm : FaultModel) (cg : CommitScreenshots)
    (label : String) (spec : ScreenshotSpec)
    (h : fm.capture_fails spec.name cg.commit_sha = none) :
    (process_spec config fm cg label spec).1
      = { name := spec.name
          filename := label ++ spec.name ++ ".png"
          path := some (generate_output_path config
            (apply_screenshot_config config spec) label)
          commit := take8 cg.commit_sha
          commit_index := cg.index
          status := "success"
          error := none } := by
  unfold process_spec
  rw [h]

lemma process_spec_fst_some (config : Config) (fm : FaultModel) (cg : CommitScreenshots)
    (label : String) (spec : ScreenshotSpec) (e : String)
    (h : fm.capture_fails spec.name cg.commit_sha = some e) :
    (process_spec config fm cg label spec).1
      = { name := spec.name
          filename := label ++ spec.name ++ ".png"
          path := none
          commit := take8 cg.commit_sha
          commit_index := cg.index
          status := "error"
          error := some e } := by
  unfold process_spec
  rw [h]

lemma process_spec_snd (config : Config) (fm : FaultModel) (cg : CommitScreenshots)
    (label : String) (spec : ScreenshotSpec) :
    (process_spec config fm cg label spec).2 = [Event.captureEv spec.name cg.commit_sha] := by
  unfold process_spec
  cases fm.capture_fails spec.name cg.commit_sha <;> rfl

lemma restoreEv_not_in_group (config : Config) (fm : FaultModel) (only : List String)
    (cg : CommitScreenshots) :
    Event.restoreEv ∉ (process_group config fm only cg).2 := by
  unfold process_group
  by_cases hemp : (filtered_specs cg only).isEmpty
  · simp [hemp]
  · cases hco : fm.checkout_fails cg.commit_sha with
    | some e => simp [hemp, hco]
    | none =>
      simp only [hemp, hco, if_false, Bool.false_eq_true]
      intro hmem
      simp only [List.mem_cons, List.mem_flatten, List.mem_map] at hmem
      rcases hmem with h | h | h | ⟨l, ⟨ev, ⟨s, _, rfl⟩, rfl⟩, hl⟩
      · exact Event.noConfusion h
      · exact Event.noConfusion h
      · exact Event.noConfusion h
      · rw [process_spec_snd] at hl
        simp at hl

lemma restoreEv_not_in_run (config : Config) (fm : FaultModel) (commits : List Commit)
    (only : List String) :
    Event.restoreEv ∉ (run_from_git config fm commits only).2 := by
  unfold run_from_git
  intro hmem
  simp only [List.mem_flatten, List.mem_map] at hmem
  obtain ⟨l, ⟨cg, _, rfl⟩, hl⟩ := hmem
  exact restoreEv_not_in_group config fm only cg hl

lemma run_results_block (config : Config) (fm : FaultModel) (commits : List Commit)
    (only : List String) (cg : CommitScreenshots)
    (hg : cg ∈ get_screenshot_commits commits) :
    ∃ pre post, (run_from_git config fm commits only).1
      = pre ++ (process_group config fm only cg).1 ++ post := by
  obtain ⟨s, t, hst⟩ := List.append_of_mem hg
  refine ⟨(s.map fun g => (process_group config fm only g).1).flatten,
          (t.map fun g => (process_group config fm only g).1).flatten, ?_⟩
  unfold run_from_git
  rw [hst]
  simp [List.map_append, List.flatten_append, List.append_assoc]

/-- Claim C1: for every run — success, partial failure, or an exception
escaping the capture loop (modelled by any prefix `p` of the run's event
trace being the realized part) — the restore of the original branch happens
exactly once, as the final teardown step, and never as a per-commit rollback
inside the run. -/
theorem C1_restore_once (config : Config) (fm : FaultModel) (commits : List Commit)
    (only : List String) (p q : List Event)
    (h : (run_from_git config fm commits only).2 = p ++ q) :
    (main_trace_of p).count Event.restoreEv = 1
    ∧ (∃ pre, main_trace_of p = pre ++ [Event.restoreEv] ∧ Event.restoreEv ∉ pre)
    ∧ Event.restoreEv ∉ p := by
  have hp : Event.restoreEv ∉ p := by
    intro hmem
    exact restoreEv_not_in_run config fm commits only (h ▸ List.mem_append_left q hmem)
  refine ⟨?_, ⟨setup_trace ++ p ++ [Event.browserStopEv, Event.serverStopEv], ?_, ?_⟩, hp⟩
  · unfold main_trace_of setup_trace teardown_trace
    rw [List.count_append, List.count_append, List.count_eq_zero.mpr hp]
    decide
  · unfold main_trace_of teardown_trace
    simp [List.append_assoc]
  · intro hmem
    simp only [List.append_assoc, List.mem_append] at hmem
    rcases hmem with hs | hp2 | hts
    · simp [setup_trace] at hs
    · exact hp hp2
    · simp at hts

def emptyConfig : Config := {}

def noFaults : FaultModel := { checkout_fails := fun _ => none, capture_fails := fun _ _ => none }

def c1Commits : List Commit := [{ hexsha := "s1", message := "[screenshot:a] m" }]

def c1RunEvents : List Event :=
  [Event.checkoutEv "s1", Event.cacheClearEv, Event.serverRestartEv, Event.captureEv "a" "s1"]

theorem C1_witness :
    (main_trace_of c1RunEvents).count Event.restoreEv = 1 :=
  (C1_restore_once emptyConfig noFaults c1Commits [] c1RunEvents [] (by decide)).1

/-- Claim C4: when the checkout of one commit group fails, every capture of
that group's filtered list is recorded as an error result carrying the
checkout-failure detail, and every group of the plan — in particular every
later one — still contributes its own block of results to the run (the run
is not aborted). -/
theorem C4_checkout_failure (config : Config) (fm : FaultModel) (commits : List Commit)
    (only : List String) (cg : CommitScreenshots) (err : String)
    (_hg : cg ∈ get_screenshot_commits commits)
    (hf : fm.checkout_fails cg.commit_sha = some err) :
    (process_group config fm only cg).1
        = (filtered_specs cg only).map
            (checkout_error_result cg (commit_prefix_of cg.index) err)
    ∧ (∀ r ∈ (process_group config fm only cg).1,
        r.status = "error" ∧ r.error = some ("Checkout failed: " ++ err))
    ∧ (∀ cg2 ∈ get_screenshot_commits commits, ∃ pre post,
        (run_from_git config fm commits only).1
          = pre ++ (process_group config fm only cg2).1 ++ post) := by
  have h1 : (process_group config fm only cg).1
      = (filtered_specs cg only).map
          (checkout_error_result cg (commit_prefix_of cg.index) err) := by
    unfold process_group
    by_cases hemp : (filtered_specs cg only).isEmpty
    · rw [if_pos hemp]
      rw [List.isEmpty_iff.mp hemp]
      rfl
    · rw [if_neg hemp, hf]
  refine ⟨h1, ?_, fun cg2 hg2 => run_results_block config fm commits only cg2 hg2⟩
  intro r hr
  rw [h1] at hr
  obtain ⟨s, _, rfl⟩ := List.mem_map.mp hr
  exact ⟨rfl, rfl⟩

def c4Fm : FaultModel :=
  { checkout_fails := fun sha => if sha = "s1" then some "boom" else none
    capture_fails := fun _ _ => none }

def c4Commits : List Commit :=
  [{ hexsha := "s2", message := "[screenshot:b] second" },
   { hexsha := "s1", message := "[screenshot:a] first" }]

def c4Group : CommitScreenshots :=
  { commit_sha := "s1"
    commit_message := "[screenshot:a] first"
    screenshots := [mkScreenshotSpec "a" "s1" "[screenshot:a] first" "[screenshot:a] first"]
    description := "[screenshot:a] first"
    index := 1 }

theorem C4_witness :
    ((process_group emptyConfig c4Fm [] c4Group).1
        = (filtered_specs c4Group []).map
            (checkout_error_result c4Group (commit_prefix_of c4Group.index) "boom"))
    ∧ (process_group emptyConfig c4Fm [] c4Group).1
        = [{ name := "a", filename := "01_a.png", path := none, commit := "s1",
             commit_index := 1, status := "error",
             error := some "Checkout failed: boom" }] :=
  ⟨(C4_checkout_failure emptyConfig c4Fm c4Commits [] c4Group "boom"
      (by decide) (by decide)).1,
   by decide⟩

/-- Claim C5: with the group's checkout succeeding, every capture of the
filtered list yields exactly one recorded result, in list order, whose
status depends only on that capture's own fault — so a raised capture error
for item N is recorded as that item's error result and does not prevent
items N+1..M, whose successes are still recorded, nor any other group's
block of results. -/
theorem C5_capture_isolation (config : Config) (fm : FaultModel) (commits : List Commit)
    (only : List String) (cg : CommitScreenshots)
    (_hg : cg ∈ get_screenshot_commits commits)
    (hok : fm.checkout_fails cg.commit_sha = none) :
    ((process_group config fm only cg).1.map (fun r => (r.name, r.status))
      = (filtered_specs cg only).map (fun s => (s.name,
          match fm.capture_fails s.name cg.commit_sha with
          | none => "success"
          | some _ => "error")))
    ∧ (∀ r ∈ (process_group config fm only cg).1, r.status = "error" →
        ∃ e, fm.capture_fails r.name cg.commit_sha = some e ∧ r.error = some e)
    ∧ (∀ r ∈ (process_group config fm only cg).1, r.status = "success" →
        (r.path).isSome)
    ∧ (∀ cg2 ∈ get_screenshot_commits commits, ∃ pre post,
        (run_from_git config fm commits only).1
          = pre ++ (process_group config fm only cg2).1 ++ post) := by
  have hres : (process_group config fm only cg).1
      = ((filtered_specs cg only).map
          (process_spec config fm cg (commit_prefix_of cg.index))).map Prod.fst := by
    unfold process_group
    by_cases hemp : (filtered_specs cg only).isEmpty
    · rw [if_pos hemp, List.isEmpty_iff.mp hemp]
      rfl
    · rw [if_neg hemp, hok]
  refine ⟨?_, ?_, ?_, fun cg2 hg2 => run_results_block config fm commits only cg2 hg2⟩
  · rw [hres, List.map_map, List.map_map]
    apply map_ext_mem
    intro s _
    simp only [Function.comp]
    unfold process_spec
    cases fm.capture_fails s.name cg.commit_sha <;> rfl
  · intro r hr hstatus
    rw [hres] at hr
    simp only [List.map_map, List.mem_map] at hr
    obtain ⟨s, _, rfl⟩ := hr
    simp only [Function.comp] at hstatus ⊢
    cases hcap : fm.capture_fails s.name cg.commit_sha with
    | none =>
      rw [process_spec_fst_none config fm cg (commit_prefix_of cg.index) s hcap] at hstatus
      simp at hstatus
    | some e =>
      rw [process_spec_fst_some config fm cg (commit_prefix_of cg.index) s e hcap]
      exact ⟨e, hcap, rfl⟩
  · intro r hr hstatus
    rw [hres] at hr
    simp only [List.map_map, List.mem_map] at hr
    obtain ⟨s, _, rfl⟩ := hr
    simp only [Function.comp] at hstatus ⊢
    cases hcap : fm.capture_fails s.name cg.commit_sha with
    | none =>
      rw [process_spec_fst_none config fm cg (commit_prefix_of cg.index) s hcap]
      rfl
    | some e =>
      rw [process_spec_fst_some config fm cg (commit_prefix_of cg.index) s e hcap] at hstatus
      simp at hstatus

def c5Fm : FaultModel :=
  { checkout_fails := fun _ => none
    capture_fails := fun n _ => if n = "a" then some "boom" else none }

def c5Commits : List Commit := [{ hexsha := "s1", message := "[screenshot:a,b] m" }]

def c5Group : CommitScreenshots :=
  { commit_sha := "s1"
    commit_message := "[screenshot:a,b] m"
    screenshots := [mkScreenshotSpec "a" "s1" "[screenshot:a,b] m" "[screenshot:a,b] m",
                    mkScreenshotSpec "b" "s1" "[screenshot:a,b] m" "[screenshot:a,b] m"]
    description := "[screenshot:a,b] m"
    index := 1 }

theorem C5_witness :
    ((process_group emptyConfig c5Fm [] c5Group).1.map (fun r => (r.name, r.status))
      = (filtered_specs c5Group []).map (fun s => (s.name,
          match c5Fm.capture_fails s.name c5Group.commit_sha with
          | none => "success"
          | some _ => "error")))
    ∧ (process_group emptyConfig c5Fm [] c5Group).1.map (fun r => (r.name, r.status))
        = [("a", "error"), ("b", "success")] :=
  ⟨(C5_capture_isolation emptyConfig c5Fm c5Commits [] c5Group
      (by decide) rfl).1,
   by decide⟩

/-- Claim C10: every appended result record — success, capture error or
checkout error — has `filename = (label)(name).png` built from the group's
sequence label and the capture name, even when a custom output path was
configured; so the `filename` field can differ from the path actually
written, as the concrete custom-output run in the second conjunct shows. -/
theorem C10_filename_field (config : Config) (fm : FaultModel) (commits : List Commit)
    (only : List String) :
    (∀ r ∈ (run_from_git config fm commits only).1,
        r.filename = commit_prefix_of r.commit_index ++ r.name ++ ".png")
    ∧ (∃ r ∈ (run_from_git
          { screenshots := [("home", { output := some "custom/h.png" })] }
          noFaults [{ hexsha := "abcdef1234", message := "[screenshot:home] first" }] []).1,
        r.filename = "01_home.png" ∧ r.path = some "custom/01_h.png"
          ∧ r.path ≠ some "screenshots/01_home.png") := by
  constructor
  · intro r hr
    unfold run_from_git at hr
    simp only [List.mem_flatten, List.mem_map] at hr
    obtain ⟨l, ⟨cg, _, rfl⟩, hl⟩ := hr
    unfold process_group at hl
    by_cases hemp : (filtered_specs cg only).isEmpty
    · rw [if_pos hemp] at hl
      simp at hl
    · rw [if_neg hemp] at hl
      cases hco : fm.checkout_fails cg.commit_sha with
      | some e =>
        rw [hco] at hl
        simp only [List.mem_map] at hl
        obtain ⟨s, _, rfl⟩ := hl
        rfl
      | none =>
        rw [hco] at hl
        simp only [List.map_map, List.mem_map] at hl
        obtain ⟨s, _, rfl⟩ := hl
        simp only [Function.comp]
        unfold process_spec
        cases fm.capture_fails s.name cg.commit_sha <;> rfl
  · decide

def c10Result : RunResult :=
  { name := "home", filename := "01_home.png", path := some "custom/01_h.png",
    commit := "abcdef12", commit_index := 1, status := "success", error := none }

theorem C10_witness :
    c10Result.filename = commit_prefix_of c10Result.commit_index ++ c10Result.name ++ ".png" :=
  (C10_filename_field { screenshots := [("home", { output := some "custom/h.png" })] }
      noFaults [{ hexsha := "abcdef1234", message := "[screenshot:home] first" }] []).1
    c10Result (by decide)

/-! ### Teardown with faulty release steps (claim C2)

`teardown` is three sequential statements with no per-step exception
handling: `browser.stop(); server.stop(); git_manager.restore_original()`.
A raise propagates immediately, so later release steps are skipped. -/

/-- Which release steps raise during teardown. -/
structure TeardownFaults where
  browser_stop_raises : Bool
  server_stop_raises : Bool
  restore_raises : Bool
deriving DecidableEq

/-- The release steps actually invoked by `teardown` under the given faults:
each statement runs only if no earlier statement raised (a step that raises
is still counted as invoked). -/
def teardown_invocations (f : TeardownFaults) : List Event :=
  Event.browserStopEv ::
    (if f.browser_stop_raises then []
     else Event.serverStopEv ::
       (if f.server_stop_raises then [] else [Event.restoreEv]))

/-- Counterexample to claim C2 as stated: when `browser.stop()` raises
during teardown, neither the server stop nor the version-control restore is
invoked — the source's `teardown` has no per-step exception handling, so
later release steps do NOT still execute. -/
theorem C2_counterexample :
    Event.serverStopEv ∉ teardown_invocations
        { browser_stop_raises := true, server_stop_raises := false, restore_raises := false }
    ∧ Event.restoreEv ∉ teardown_invocations
        { browser_stop_raises := true, server_stop_raises := false, restore_raises := false } := by
  decide

/-- Claim C2 (amended): teardown invokes the release steps in the fixed
order capture engine, then server process, then version-control restore —
the invocation list is always an initial segment of that order, and all
three run when no step raises — but a release step that raises aborts
teardown and the later steps are skipped. -/
theorem C2_teardown_order (f : TeardownFaults) :
    (∃ q, teardown_invocations f ++ q = teardown_trace)
    ∧ (f.browser_stop_raises = false → f.server_stop_raises = false →
        teardown_invocations f = [Event.browserStopEv, Event.serverStopEv, Event.restoreEv])
    ∧ (f.browser_stop_raises = true → teardown_invocations f = [Event.browserStopEv])
    ∧ (f.browser_stop_raises = false → f.server_stop_raises = true →
        teardown_invocations f = [Event.browserStopEv, Event.serverStopEv]) := by
  rcases f with ⟨b, s, r⟩
  cases b <;> cases s <;> cases r <;> exact ⟨⟨_, rfl⟩, by simp [teardown_invocations]⟩

theorem C2_witness :
    teardown_invocations
        { browser_stop_raises := true, server_stop_raises := false, restore_raises := false }
      = [Event.browserStopEv] :=
  (C2_teardown_order
      { browser_stop_raises := true, server_stop_raises := false, restore_raises := false }).2.2.1
    rfl

/-! ### Optional capabilities at startup (claim C9)

A missing import only sets an availability flag; the `RuntimeError` checks
sit in `GitProjectManager.__init__` and `BrowserCapture.__init__`, both of
which `ScreenshotOrchestrator.__init__` runs — and `main` constructs the
orchestrator BEFORE the `--list` branch.  Pillow is the exception: it is
only consulted inside `BrowserCapture.start`/`capture` behind an
availability guard. -/

/-- Which optional libraries imported successfully. -/
structure Availability where
  playwright : Bool
  gitpython : Bool
  pillow : Bool
deriving DecidableEq

/-- `GitProjectManager.__init__`: raises when GitPython is unavailable. -/
def git_manager_init (av : Availability) : Except String Unit :=
  if av.gitpython then Except.ok () else Except.error "GitPython est requis"

/-- `BrowserCapture.__init__`: raises when Playwright is unavailable. -/
def browser_capture_init (av : Availability) : Except String Unit :=
  if av.playwright then Except.ok () else Except.error "Playwright est requis"

/-- `ScreenshotOrchestrator.__init__`: constructs the git manager, the
server wrapper (no capability check) and the browser wrapper, in that
order; the first raise aborts construction. -/
def orchestrator_init (av : Availability) : Except String Unit :=
  match git_manager_init av with
  | Except.error e => Except.error e
  | Except.ok _ => browser_capture_init av

/-- Observable outcome of `main` after the path check: construction raised,
the `--list` branch printed the plan and exited 0, or a full run happened. -/
inductive MainOutcome where
  | raisedInit (msg : String)
  | listed
  | ran
deriving DecidableEq

/-- `main` for an existing project path: construct the orchestrator, then
handle `--list`, else run. -/
def main_flow (av : Availability) (list_flag : Bool) : MainOutcome :=
  match orchestrator_init av with
  | Except.error m => MainOutcome.raisedInit m
  | Except.ok _ => if list_flag then MainOutcome.listed else MainOutcome.ran

/-- Counterexample to claim C9 as stated: with the browser-automation
library missing (git and annotation libraries present), `--list` does NOT
succeed — the orchestrator constructor raises the Playwright check before
the `--list` branch is reached. -/
theorem C9_counterexample :
    main_flow { playwright := false, gitpython := true, pillow := true } true
        = MainOutcome.raisedInit "Playwright est requis"
    ∧ main_flow { playwright := false, gitpython := true, pillow := true } true
        ≠ MainOutcome.listed := by
  decide

/-- Claim C9 (amended): a missing optional library never fails at import
time, but the git and browser libraries are both checked when the
orchestrator is constructed — before the `--list` branch — so `--list`
succeeds exactly when both are present (git checked first); the annotation
library is the only lazily-degrading capability, and its absence does not
change the startup outcome at all. -/
theorem C9_capability_checks (av : Availability) (lf : Bool) :
    (main_flow av lf = MainOutcome.listed
        ↔ av.gitpython = true ∧ av.playwright = true ∧ lf = true)
    ∧ (av.gitpython = false →
        main_flow av lf = MainOutcome.raisedInit "GitPython est requis")
    ∧ (av.gitpython = true → av.playwright = false →
        main_flow av lf = MainOutcome.raisedInit "Playwright est requis")
    ∧ (main_flow { playwright := av.playwright, gitpython := av.gitpython, pillow := false } lf
        = main_flow { playwright := av.playwright, gitpython := av.gitpython, pillow := true } lf) := by
  rcases av with ⟨p, g, pi⟩
  cases p <;> cases g <;> cases pi <;> cases lf <;> decide

theorem C9_witness :
    main_flow { playwright := true, gitpython := false, pillow := true } true
      = MainOutcome.raisedInit "GitPython est requis" :=
  (C9_capability_checks { playwright := true, gitpython := false, pillow := true } true).2.1 rfl

end Screenshotter
